import Mathlib

/-!
Verification of the core node model, matcher/query engine and parser-cursor
of the `hpctlib.editors.lib` package (files `base/node.py`, `base/matcher.py`,
`base/parser.py`, `base/editor.py`, `line/parser.py`, `line/node.py`),
as a shallow embedding in Lean.

Python strings are modelled as `List Char`; `None`-able parameters as
`Option`; the unique `EOF` sentinel object as a dedicated constructor of an
inductive type (hence provably distinct from every string). A Python list of
child nodes is modelled by the sequence type `NodeList` (mutually inductive
with `Node`, so that all tree operations are structurally recursive and
computable).
-/

namespace Hpct

/-- Kinds of leaf nodes used by the line grammar (`base/node.py`,
`line/node.py`): `blank` is `BlankNode`/`BlankLineNode` (renders `""`),
`str` is `StringNode` and its subclasses `CommentLineNode`/`LineNode`
(render their value). -/
inductive LeafKind where
  | blank
  | str
deriving DecidableEq, Repr

mutual
/-- The node model of `base/node.py`: `LeafNode` carries a value and no
children; `JoinNode` (a `ContainerNode`) carries children and a class-level
`separator` which may be `None` (`CommaJoinNode` fixes it to `","`,
`NewlineJoinNode` to `"\n"`). -/
inductive Node where
  | leaf (kind : LeafKind) (value : List Char)
  | join (separator : Option (List Char)) (children : NodeList)

/-- An ordered child list (the Python `list` held in
`ContainerNode.children`). -/
inductive NodeList where
  | nil
  | cons (head : Node) (tail : NodeList)
end

deriving instance DecidableEq for Node
deriving instance Repr for Node

/-- The `BlankLineNode` of `line/node.py` (a `BlankNode`). -/
def BlankLineNode (v : List Char) : Node := .leaf .blank v

/-- The `CommentLineNode` of `line/node.py` (a `StringNode`). -/
def CommentLineNode (v : List Char) : Node := .leaf .str v

/-- The `LineNode` of `line/node.py` (a `StringNode`). -/
def LineNode (v : List Char) : Node := .leaf .str v

/-- The length of a child list. -/
def NodeList.length : NodeList → Nat
  | .nil => 0
  | .cons _ t => 1 + t.length

/-- Python `list` concatenation on child lists. -/
def NodeList.append : NodeList → NodeList → NodeList
  | .nil, ys => ys
  | .cons x xs, ys => .cons x (NodeList.append xs ys)

/-- The child list as an ordinary Lean list (for stating properties). -/
def NodeList.toList : NodeList → List Node
  | .nil => []
  | .cons x xs => x :: xs.toList

/-- Build a child list from a Lean list. -/
def NodeList.ofList : List Node → NodeList
  | [] => .nil
  | x :: xs => .cons x (NodeList.ofList xs)

/-- The `LinesNode` of `line/node.py` (a `NewlineJoinNode`, separator `"\n"`). -/
def LinesNode (cs : NodeList) : Node := .join (some ['\n']) cs

/-- Python `sep.join(items)`. -/
def pyJoin (sep : List Char) : List (List Char) → List Char
  | [] => []
  | [x] => x
  | x :: xs => x ++ sep ++ pyJoin sep xs

mutual
/-- The `render` of `base/node.py`: `BlankNode.render` returns `""`,
`StringNode.render` returns `f"{self.value}"`, and `JoinNode.render` joins
the children's renderings with `self.separator`, falling back to a single
space when the separator is `None`
(`separator = self.separator if self.separator != None else " "`). -/
def render : Node → List Char
  | .leaf .blank _ => []
  | .leaf .str v => v
  | .join sep cs => pyJoin (match sep with | some s => s | none => [' ']) (renderList cs)

/-- The list `[node.render() for node in self.children]`. -/
def renderList : NodeList → List (List Char)
  | .nil => []
  | .cons c cs => render c :: renderList cs
end

/-- The `children` attribute of a node (a `LeafNode` has none). -/
def childrenOf : Node → NodeList
  | .leaf _ _ => .nil
  | .join _ cs => cs

mutual
/-- The `walkpath` of `base/node.py`: `LeafNode.walkpath` yields the single path
`nodepath + [self]` (ignoring `maxdepth` and `topdown`);
`ContainerNode.walkpath` yields `nodepath + [self]` (before the children when
`topdown`, after otherwise) and, when `maxdepth > 0`, recurses into each
child with nodepath `nodepath + [self]` and `maxdepth - 1`. -/
def walkpath (n : Node) (nodepath : List Node) (maxdepth : Nat) (topdown : Bool) :
    List (List Node) :=
  match n with
  | .leaf k v => [nodepath ++ [Node.leaf k v]]
  | .join sep cs =>
    let np := nodepath ++ [Node.join sep cs]
    (if topdown then [np] else []) ++
      (if maxdepth > 0 then walkpathList cs np (maxdepth - 1) topdown else []) ++
      (if topdown then [] else [np])

/-- The concatenation of the `walkpath` generators of the children
(`for node in self.children: yield from node.walkpath(nodepath, maxdepth-1,
topdown)`). -/
def walkpathList (cs : NodeList) (nodepath : List Node) (maxdepth : Nat) (topdown : Bool) :
    List (List Node) :=
  match cs with
  | .nil => []
  | .cons c rest => walkpath c nodepath maxdepth topdown ++
      walkpathList rest nodepath maxdepth topdown
end

/-! ## Matcher and query engine (`base/matcher.py`, `ContainerNode.find`) -/

/-- The `rettype` strings accepted by `ContainerNode.find`. -/
inductive RetType where
  | node
  | path
  | parentchild
deriving DecidableEq, Repr

/-- A `Matcher` of `base/matcher.py`: `__init__` sets the defaults
`maxcount = -1`, `maxdepth = 6`, `rettype = "node"`; the match criterion
itself (`match(self, node, nodepath)`) is modelled as a boolean function. -/
structure Matcher where
  maxcount : Int
  maxdepth : Nat
  rettype : RetType
  matchfn : Node → List Node → Bool

/-- A matcher with the constructor's default parameters. -/
def Matcher.default (fn : Node → List Node → Bool) : Matcher :=
  { maxcount := -1, maxdepth := 6, rettype := .node, matchfn := fn }

/-- One collected element of `ContainerNode.find`'s result list, according to
the projection `rettype`: the node itself, the nodepath, or the
`nodepath[-2:]` pair (`[None, node]` when the path has a single element). -/
inductive FindResult where
  | node (n : Node)
  | path (p : List Node)
  | parentchild (parent : Option Node) (child : Node)
deriving DecidableEq, Repr

/-- Python `x or y` for an optional integer (`None` and `0` are falsy). -/
def pyOrInt : Option Int → Int → Int
  | none, d => d
  | some v, d => if v = 0 then d else v

/-- Python `x or y` for an optional natural number (`None` and `0` are
falsy). -/
def pyOrNat : Option Nat → Nat → Nat
  | none, d => d
  | some v, d => if v = 0 then d else v

/-- The `rettype` projection inside `ContainerNode.find`'s loop:
`node` appends `nodepath[-1]`, `path` appends `nodepath`, `parentchild`
appends `nodepath[-2:]` when `len(nodepath) > 1` and `[None, nodepath[-1]]`
otherwise. -/
def projResult (rt : RetType) (np : List Node) (node : Node) : FindResult :=
  match rt with
  | .node => .node node
  | .path => .path np
  | .parentchild =>
    .parentchild (if np.length > 1 then np.dropLast.getLast? else none) node

/-- The `for nodepath in self.walkpath(...)` loop of `ContainerNode.find`:
`node = nodepath[-1]`; on a match the projected result is appended, and the
loop breaks when `len(l) == matcher.maxcount` — note that the source tests
against `matcher.maxcount`, not against the local `maxcount` computed from
the `maxcount` argument. -/
def findLoop (m : Matcher) (rt : RetType) (paths : List (List Node)) (acc : List FindResult) :
    List FindResult :=
  match paths with
  | [] => acc
  | np :: rest =>
    match np.getLast? with
    | none => findLoop m rt rest acc
    | some node =>
      if m.matchfn node np then
        if ((acc ++ [projResult rt np node]).length : Int) = m.maxcount then
          acc ++ [projResult rt np node]
        else findLoop m rt rest (acc ++ [projResult rt np node])
      else findLoop m rt rest acc

/-- The `ContainerNode.find(matcher, maxcount, maxdepth, rettype)`:
`rettype = rettype or matcher.rettype`, `maxcount = maxcount or
matcher.maxcount` (a local that the loop never reads — the break condition
uses `matcher.maxcount`), `maxdepth = maxdepth or matcher.maxdepth`; then the
loop over `self.walkpath(maxdepth=maxdepth)` (top-down). -/
def find (root : Node) (m : Matcher) (maxcount : Option Int) (maxdepth : Option Nat)
    (rettype : Option RetType) : List FindResult :=
  let rt := match rettype with | some r => r | none => m.rettype
  let _maxcount := pyOrInt maxcount m.maxcount
  let md := pyOrNat maxdepth m.maxdepth
  findLoop m rt (walkpath root [] md true) []

/-- The `ContainerNode.find_first(matcher, maxdepth, rettype)`: calls
`find(matcher, maxcount=1, maxdepth=maxdepth, rettype=rettype)` and returns
`results[0]` when the list is non-empty, else `None`. -/
def find_first (root : Node) (m : Matcher) (maxdepth : Option Nat)
    (rettype : Option RetType) : Option FindResult :=
  (find root m (some 1) maxdepth rettype).head?

/-- The `DescendantOfMatcher.match(node, nodepath)` (`base/matcher.py`): when
`len(nodepath) > self._depth` it evaluates
`self._matcher.match(nodepath[-(self._depth + 1)])` — a call of the
submatcher's two-parameter method `match(self, node, nodepath)` with a single
positional argument, which Python rejects with a `TypeError` before any
matching can happen, whatever standard submatcher was supplied; when the path
is not longer than `_depth` the method falls through and returns `None`. -/
def descendantOfMatcher_match (depth : Nat) (node : Node) (nodepath : List Node) :
    Except (List Char) (Option Bool) :=
  if nodepath.length > depth then
    .error ("TypeError: match() missing 1 required positional argument".data)
  else
    .ok none

/-- The `ChildOfMatcher.match`: inherited from `DescendantOfMatcher` with
`depth = 1`. -/
def childOfMatcher_match (node : Node) (nodepath : List Node) :
    Except (List Char) (Option Bool) :=
  descendantOfMatcher_match 1 node nodepath

/-! ## Mutation primitives of `ContainerNode` (`base/node.py`) -/

/-- The `ContainerNode.has(node)`: `node in self.children`. -/
def NodeList.has (cs : NodeList) (n : Node) : Bool :=
  match cs with
  | .nil => false
  | .cons x xs => decide (x = n) || xs.has n

/-- Python `list.index(x)`: index of the first element equal to `x`, or a
`ValueError` (modelled as `none`) when absent. -/
def NodeList.indexOf (cs : NodeList) (n : Node) : Option Nat :=
  match cs with
  | .nil => none
  | .cons x xs => if x = n then some 0 else (xs.indexOf n).map (· + 1)

/-- Python `list.insert(i, x)` (for the indices used here, `i ≤ len`). -/
def NodeList.insertAt : NodeList → Nat → Node → NodeList
  | .nil, _, x => .cons x .nil
  | cs, 0, x => .cons x cs
  | .cons y ys, i + 1, x => .cons y (ys.insertAt i x)

/-- Python `self.children[i] = x` (for a valid index `i`). -/
def NodeList.setAt : NodeList → Nat → Node → NodeList
  | .nil, _, _ => .nil
  | .cons _ ys, 0, x => .cons x ys
  | .cons y ys, i + 1, x => .cons y (ys.setAt i x)

/-- The `ContainerNode.insert_before(node, relnode, append=False)`:
`i = self.children.index(relnode); self.children.insert(i, node)`, and on the
`ValueError` of a missing `relnode` it appends `node` when `append` is set,
else leaves the children untouched. -/
def insert_before (cs : NodeList) (node relnode : Node) (append : Bool) : NodeList :=
  match cs.indexOf relnode with
  | some i => cs.insertAt i node
  | none => if append then cs.append (.cons node .nil) else cs

/-- The `ContainerNode.insert_after(node, relnode, append=False)`: like
`insert_before` but inserting at `i + 1`. -/
def insert_after (cs : NodeList) (node relnode : Node) (append : Bool) : NodeList :=
  match cs.indexOf relnode with
  | some i => cs.insertAt (i + 1) node
  | none => if append then cs.append (.cons node .nil) else cs

/-- The `ContainerNode.upsert(node, newnode)`:
`i = self.children.index(node); self.children[i] = newnode`, and on the
`ValueError` of a missing `node` it appends `newnode`. -/
def upsert (cs : NodeList) (node newnode : Node) : NodeList :=
  match cs.indexOf node with
  | some i => cs.setAt i newnode
  | none => cs.append (.cons newnode .nil)

/-! ## Editor (`base/editor.py`) -/

/-- The editor state relevant to `load`: `self.root`, initialized to `None`
by `Editor.__init__`. -/
structure Editor where
  root : Option Node
deriving DecidableEq, Repr

/-- The `Editor.load(path)`: `root = self.parse(f); self.root = root`. The
outcome of the bound parser's `parse()` is passed in as an `Except` value: a
`ParsingError` raised by `parse()` propagates out of `load` before the
assignment `self.root = root` runs, so the editor state is returned
untouched; on success the parsed root is stored. -/
def Editor.load (ed : Editor) (parsed : Except (List Char) Node) :
    Editor × Except (List Char) Unit :=
  match parsed with
  | .error e => (ed, .error e)
  | .ok root => ({ root := some root }, .ok ())

/-! ## Cursor/Feed (`base/parser.py`) and the line parser (`line/parser.py`) -/

/-- The `io.StringIO.readline`: the prefix of the remaining contents up to and
including the first `"\n"` (the whole rest when no newline remains), paired
with what is left. -/
def readline : List Char → List Char × List Char
  | [] => ([], [])
  | c :: rest =>
    if c = '\n' then ([c], rest)
    else
      let p := readline rest
      (c :: p.1, p.2)

/-- The `Feed` of `base/parser.py` over an in-memory string source: `buf` is
the internal buffer (`None` initially — `None` and `""` behave identically
under the `if not self.buf` test, so both are modelled as `[]`), `src` the
unread remainder of the `io.StringIO` source. -/
structure Feed where
  buf : List Char
  src : List Char
deriving DecidableEq, Repr

/-- The `Feed.preload`: `if not self.buf: self.buf = self.f.readline()`. -/
def Feed.preload (f : Feed) : Feed :=
  if f.buf = [] then
    let p := readline f.src
    { buf := p.1, src := p.2 }
  else f

/-- The slicing done by `Feed.popline` around `i = buf.index("\n")`:
`some (buf[:i+1], buf[i+1:])` when `"\n"` occurs in `buf`, and `none` for the
`ValueError` of a newline-free buffer. -/
def splitAfterNL : List Char → Option (List Char × List Char)
  | [] => none
  | c :: rest =>
    if c = '\n' then some ([c], rest)
    else
      match splitAfterNL rest with
      | some (l, r) => some (c :: l, r)
      | none => none

/-- The result of `Feed.popline` (and of `nextline`/`nextstripline`): the
`EOF` sentinel — an instance of the dedicated class `EOFType`, hence distinct
from every string — or a line. -/
inductive PopRes where
  | eof
  | line (s : List Char)
deriving DecidableEq, Repr

/-- The `Feed.popline`: after `preload`, split the buffer after the first
newline (`line = buf[:i+1]; self.buf = buf[i+1:]`), falling back on
`ValueError` to `line = buf; self.buf = ""`; return `EOF` when the resulting
`line` is empty, else the line. -/
def Feed.popline (f : Feed) : PopRes × Feed :=
  match splitAfterNL f.preload.buf with
  | some (l, r) =>
    if l = [] then (.eof, { f.preload with buf := r })
    else (.line l, { f.preload with buf := r })
  | none =>
    if f.preload.buf = [] then (.eof, { f.preload with buf := [] })
    else (.line f.preload.buf, { f.preload with buf := [] })

/-- Python `str.strip()`'s whitespace test (ASCII part). -/
def pyIsSpace (c : Char) : Bool :=
  c = ' ' || c = '\t' || c = '\n' || c = '\r' || c = '\x0b' || c = '\x0c'

/-- Python `str.strip()`: remove leading and trailing whitespace. -/
def pyStrip (s : List Char) : List Char :=
  ((s.dropWhile pyIsSpace).reverse.dropWhile pyIsSpace).reverse

/-- The `LineParser.nextline`: `self.line = self.feed.popline()`. The new
current line is paired with the feed state after the pop. -/
def nextline (f : Feed) : PopRes × Feed :=
  f.popline

/-- The `LineParser.nextstripline`: `nextline()`, then
`self.line = self.line.strip()` unless the pop hit `EOF`. -/
def nextstripline (f : Feed) : PopRes × Feed :=
  match nextline f with
  | (.eof, f') => (.eof, f')
  | (.line l, f') => (.line (pyStrip l), f')

/-- The `LineParser.is_comment_line`: `line.startswith("#")`. -/
def is_comment_line (l : List Char) : Bool :=
  match l with
  | [] => false
  | c :: _ => c = '#'

/-- Total number of unread characters of a feed (termination measure for the
parse loop). -/
def Feed.size (f : Feed) : Nat := f.buf.length + f.src.length

theorem readline_append (s : List Char) : (readline s).1 ++ (readline s).2 = s := by
  induction s with
  | nil => rfl
  | cons c rest ih =>
    by_cases h : c = '\n' <;> simp [readline, h] <;> exact ih

theorem readline_fst_ne_nil (s : List Char) (h : s ≠ []) : (readline s).1 ≠ [] := by
  cases s with
  | nil => exact absurd rfl h
  | cons c rest => by_cases hc : c = '\n' <;> simp [readline, hc]

theorem splitAfterNL_spec (s l r : List Char) (h : splitAfterNL s = some (l, r)) :
    l ++ r = s ∧ l ≠ [] := by
  induction s generalizing l r with
  | nil => simp [splitAfterNL] at h
  | cons c rest ih =>
    by_cases hc : c = '\n'
    · simp [splitAfterNL, hc] at h
      simp [← h.1, ← h.2, hc]
    · simp [splitAfterNL, hc] at h
      rcases h' : splitAfterNL rest with _ | ⟨l', r'⟩
      · rw [h'] at h; simp at h
      · rw [h'] at h
        simp at h
        rcases ih l' r' h' with ⟨hlr, _⟩
        simp [← h.1, ← h.2, ← hlr]

theorem preload_size (f : Feed) : f.preload.size = f.size := by
  unfold Feed.preload Feed.size
  by_cases h : f.buf = []
  · simp [h]
    have := readline_append f.src
    have : ((readline f.src).1 ++ (readline f.src).2).length = f.src.length := by rw [this]
    simpa using this
  · simp [h]

theorem preload_buf_ne_nil (f : Feed) (h : f.src ≠ [] ∨ f.buf ≠ []) :
    f.preload.buf ≠ [] := by
  unfold Feed.preload
  by_cases hb : f.buf = []
  · simp [hb]
    rcases h with h | h
    · exact readline_fst_ne_nil f.src h
    · exact absurd hb h
  · simp [hb]

theorem popline_line_size (f : Feed) (l : List Char) (f' : Feed)
    (h : f.popline = (.line l, f')) : f'.size < f.size ∧ l ≠ [] := by
  unfold Feed.popline at h
  rcases hs : splitAfterNL f.preload.buf with _ | ⟨l₀, r₀⟩
  · simp only [hs] at h
    by_cases hb : f.preload.buf = []
    · rw [if_pos hb] at h; simp at h
    · rw [if_neg hb] at h
      simp at h
      rcases h with ⟨h1, h2⟩
      refine ⟨?_, by rw [← h1]; exact hb⟩
      rw [← h2]
      have hps := preload_size f
      unfold Feed.size at *
      simp only [List.length_nil]
      have : 0 < f.preload.buf.length := List.length_pos.mpr hb
      omega
  · simp only [hs] at h
    rcases splitAfterNL_spec _ _ _ hs with ⟨happ, hne⟩
    simp [hne] at h
    rcases h with ⟨h1, h2⟩
    refine ⟨?_, by rw [← h1]; exact hne⟩
    rw [← h2]
    have hps := preload_size f
    unfold Feed.size at *
    simp only
    have hsum : l₀.length + r₀.length = f.preload.buf.length := by
      rw [← happ]; simp
    have hl : 0 < l₀.length := List.length_pos.mpr hne
    omega

theorem nextstripline_line_size (f : Feed) (l : List Char) (f' : Feed)
    (h : nextstripline f = (.line l, f')) : f'.size < f.size := by
  unfold nextstripline nextline at h
  rcases hp : f.popline with ⟨pr, g⟩
  rw [hp] at h
  cases pr with
  | eof => simp at h
  | line l₀ =>
    simp at h
    exact (popline_line_size f l₀ f' (by rw [hp, h.2])).1

/-- The body of `LineParser.parse`'s `while self.line != EOF` loop: each
iteration classifies the current line — `parse_commentline` when
`is_comment_line`, `parse_blankline` when the line is `""`, else a plain
`LineNode` — appends the node to the root's children, and advances with
`next()` (= `nextstripline`). -/
def parseLoop (line : PopRes) (f : Feed) : NodeList :=
  match line with
  | .eof => .nil
  | .line l =>
    let node :=
      if is_comment_line l then CommentLineNode l
      else if l = [] then BlankLineNode l
      else LineNode l
    match hn : nextstripline f with
    | (line', f') => .cons node (parseLoop line' f')
termination_by match line with | .eof => 0 | .line _ => f.size + 1
decreasing_by
  cases line' with
  | eof => simp
  | line l' => simp; exact nextstripline_line_size f l' f' hn

/-- The full pipeline of `LineParser` over a string source `s`:
`Feed.__init__` (empty buffer, `io.StringIO(s)`), `Parser.__init__` priming
with `next()` (= `nextstripline`), then `LineParser.parse()` building a
`LinesNode` root from the classified lines. -/
def lineParse (s : List Char) : Node :=
  let f0 : Feed := { buf := [], src := s }
  match nextstripline f0 with
  | (line, f) => LinesNode (parseLoop line f)

/-! ## Derived notions used to state properties -/

/-- A root-anchored path is well formed when each element after the first is
one of the children of the element before it. -/
def isChain : List Node → Bool
  | [] => true
  | [_] => true
  | a :: b :: rest => (childrenOf a).has b && isChain (b :: rest)

/-- Sample tree: a `LinesNode` with a single `LineNode` child. -/
def oneLineRoot : Node := LinesNode (.cons (LineNode ['a']) .nil)

/-- Sample tree: a `LinesNode` with two `LineNode` children. -/
def twoLineRoot : Node :=
  LinesNode (.cons (LineNode ['a']) (.cons (LineNode ['b']) .nil))

/-- A matcher (with the constructor's default parameters) matching every
string-leaf node, in the way a `TypeMatcher(StringNode)` would. -/
def strLeafMatcher : Matcher :=
  Matcher.default (fun n _ => match n with | .leaf .str _ => true | _ => false)

/-- A matcher (with the constructor's default parameters) matching every
node. -/
def anyMatcher : Matcher := Matcher.default (fun _ _ => true)

/-! ## Theorems for the claims -/

/-- Claim C1: The round-trip claim fails on the code: `LineParser.parse`
strips every popped line (`nextstripline`) and `LinesNode` re-joins the
stripped lines with `"\n"`, so `render()` of the parse of `"a\n"` is `"a"` —
the line terminator of the last line is lost — and the parse of `" a\n"`
also renders `"a"`, losing the leading whitespace. -/
theorem lineParse_render_not_roundtrip :
    render (lineParse ['a', '\n']) = ['a'] ∧
    render (lineParse [' ', 'a', '\n']) = ['a'] ∧
    (['a'] : List Char) ≠ ['a', '\n'] := by
  refine ⟨?_, ?_, by decide⟩ <;>
    simp [lineParse, nextstripline, nextline, Feed.popline, Feed.preload, splitAfterNL,
      readline, pyStrip, pyIsSpace, parseLoop, is_comment_line, LinesNode, LineNode,
      render, renderList, pyJoin]

/-- Claim C2: The claim fails on the code: `find`'s loop breaks on
`len(l) == matcher.maxcount` instead of the `maxcount` argument, so with the
constructor default `maxcount = -1` the call `find(matcher, maxcount=1)`
collects *all* matches: on a two-line tree it returns a two-element list even
though `find_first` returns a non-empty result. -/
theorem find_maxcount_argument_ignored :
    find twoLineRoot strLeafMatcher (some 1) none none =
      [.node (LineNode ['a']), .node (LineNode ['b'])] ∧
    (find twoLineRoot strLeafMatcher (some 1) none none).length ≠ 1 ∧
    find_first twoLineRoot strLeafMatcher none none = some (.node (LineNode ['a'])) := by
  decide

/-- Claim C3, counterexample: For `d = 0` the claim fails: `find` computes
`maxdepth = maxdepth or matcher.maxdepth`, and `0` is falsy in Python, so
`maxdepth=0` silently becomes the matcher default `6`; the query then
returns a node whose path has length `2 > 0 + 1`. -/
theorem find_maxdepth_zero_falls_back :
    find oneLineRoot anyMatcher none (some 0) (some .path) =
      [.path [oneLineRoot], .path [oneLineRoot, LineNode ['a']]] ∧
    ¬ ([oneLineRoot, LineNode ['a']].length ≤ 0 + 1) := by
  decide

/-- Claim C4: The claim fails on the code: when the path is long enough,
`DescendantOfMatcher.match` evaluates
`self._matcher.match(nodepath[-(self._depth + 1)])`, calling the
submatcher's two-parameter `match(self, node, nodepath)` with one positional
argument — Python raises `TypeError` instead of returning the submatcher's
verdict; and when the path is too short the method falls through and returns
`None`, not `False`. -/
theorem childOfMatcher_raises_typeerror :
    childOfMatcher_match (LineNode ['a']) [oneLineRoot, LineNode ['a']] =
      .error ("TypeError: match() missing 1 required positional argument".data) ∧
    childOfMatcher_match oneLineRoot [oneLineRoot] = .ok none ∧
    descendantOfMatcher_match 2 (LineNode ['a']) [oneLineRoot, LineNode ['a']] = .ok none := by
  exact ⟨rfl, rfl, rfl⟩

/-- The `renderList` is the pointwise `render` of the children. -/
theorem renderList_eq_map : ∀ (cs : NodeList), renderList cs = cs.toList.map render
  | .nil => rfl
  | .cons c rest => by simp [renderList, NodeList.toList, renderList_eq_map rest]

/-- Claim C6: A `JoinNode` whose declared separator is `None` renders its
children joined by exactly one space: in general the render is the
space-join of the children's renders, and a join of two leaves rendering
`"a"` and `"b"` renders as `"a b"`. -/
theorem joinNode_none_separator_is_space (cs : NodeList) :
    render (Node.join none cs) = pyJoin [' '] (cs.toList.map render) ∧
    render (Node.join none (.cons (.leaf .str ['a']) (.cons (.leaf .str ['b']) .nil))) =
      ['a', ' ', 'b'] := by
  constructor
  · show pyJoin [' '] (renderList cs) = _
    rw [renderList_eq_map]
  · decide

/-- Claim C9: If the bound parser's `parse()` raises a `ParsingError`, the
assignment `self.root = root` in `Editor.load` is never reached, so the
stored root is unchanged from its value before the call. -/
theorem load_error_keeps_root (ed : Editor) (pr : Except (List Char) Node) (e : List Char)
    (h : (Editor.load ed pr).2 = .error e) : (Editor.load ed pr).1.root = ed.root := by
  cases pr with
  | error e' => rfl
  | ok root => simp [Editor.load] at h

/-- Witness for `load_error_keeps_root` at a concrete failing parse. -/
theorem load_error_keeps_root_witness :
    (Editor.load { root := none } (.error ['x'])).1.root = none :=
  load_error_keeps_root { root := none } (.error ['x']) ['x'] rfl

theorem readline_fst_nil_iff (s : List Char) : (readline s).1 = [] ↔ s = [] := by
  cases s with
  | nil => simp [readline]
  | cons c rest =>
    constructor
    · intro h
      exact absurd h (readline_fst_ne_nil (c :: rest) (by simp))
    · intro h
      exact absurd h (by simp)

theorem preload_buf_nil_iff (f : Feed) : f.preload.buf = [] ↔ (f.buf = [] ∧ f.src = []) := by
  unfold Feed.preload
  by_cases hb : f.buf = []
  · simp [hb, readline_fst_nil_iff]
  · simp [hb]

/-- Claim C5: `Feed.popline` returns the `EOF` sentinel exactly when the
internal buffer and the source are both exhausted; a blank line at the front
of the source is returned as the text `"\n"`; and the sentinel — a dedicated
constructor, modelling the unique `EOFType` instance — is distinct from
every string, in particular from the empty one. -/
theorem popline_eof_spec (f : Feed) :
    ((f.popline).1 = PopRes.eof ↔ f.buf = [] ∧ f.src = []) ∧
    (∀ rest : List Char, f.buf = [] → f.src = '\n' :: rest →
      (f.popline).1 = PopRes.line ['\n']) ∧
    (∀ s : List Char, (PopRes.eof : PopRes) ≠ PopRes.line s) := by
  refine ⟨?_, ?_, by intro s h; cases h⟩
  · unfold Feed.popline
    rcases hs : splitAfterNL f.preload.buf with _ | ⟨l, r⟩
    · by_cases hb : f.preload.buf = []
      · simp [hs, hb, ((preload_buf_nil_iff f).mp hb).1, ((preload_buf_nil_iff f).mp hb).2]
      · have hfb : ¬(f.buf = [] ∧ f.src = []) := fun hc => hb ((preload_buf_nil_iff f).mpr hc)
        simp [hs, hb, hfb]
    · rcases splitAfterNL_spec _ _ _ hs with ⟨happ, hne⟩
      have hbuf : f.preload.buf ≠ [] := by
        rw [← happ]; simp [hne]
      have hfb : ¬(f.buf = [] ∧ f.src = []) := fun hc => hbuf ((preload_buf_nil_iff f).mpr hc)
      simp [hs, hne, hfb]
  · intro rest hb hsrc
    obtain ⟨buf, src⟩ := f
    simp only at hb hsrc
    subst hb; subst hsrc
    simp [Feed.popline, Feed.preload, readline, splitAfterNL]

/-- Witness for `popline_eof_spec`: a source holding a single blank line
yields the line `"\n"`, an exhausted feed yields `EOF`. -/
theorem popline_eof_spec_witness :
    ((⟨[], ['\n']⟩ : Feed).popline).1 = PopRes.line ['\n'] ∧
    ((⟨[], []⟩ : Feed).popline).1 = PopRes.eof :=
  ⟨(popline_eof_spec ⟨[], ['\n']⟩).2.1 [] rfl rfl,
   (popline_eof_spec ⟨[], []⟩).1.mpr ⟨rfl, rfl⟩⟩

theorem toList_length : ∀ (cs : NodeList), cs.toList.length = cs.length
  | .nil => rfl
  | .cons c rest => by
      simp [NodeList.toList, NodeList.length, toList_length rest, Nat.add_comm]

theorem append_toList : ∀ (cs ds : NodeList), (cs.append ds).toList = cs.toList ++ ds.toList
  | .nil, ds => rfl
  | .cons c rest, ds => by simp [NodeList.append, NodeList.toList, append_toList rest ds]

theorem has_false_indexOf : ∀ (cs : NodeList) (n : Node), cs.has n = false →
    cs.indexOf n = none
  | .nil, _, _ => rfl
  | .cons x xs, n, h => by
      simp [NodeList.has] at h
      simp [NodeList.indexOf, h.1, has_false_indexOf xs n (by simp [h.2])]

theorem has_true_indexOf : ∀ (cs : NodeList) (n : Node), cs.has n = true →
    ∃ i, cs.indexOf n = some i
  | .nil, n, h => by simp [NodeList.has] at h
  | .cons x xs, n, h => by
      by_cases hx : x = n
      · exact ⟨0, by simp [NodeList.indexOf, hx]⟩
      · simp [NodeList.has, hx] at h
        obtain ⟨i, hi⟩ := has_true_indexOf xs n h
        exact ⟨i + 1, by simp [NodeList.indexOf, hx, hi]⟩

theorem indexOf_some_split : ∀ (cs : NodeList) (n : Node) (i : Nat), cs.indexOf n = some i →
    ∃ p q, cs.toList = p ++ n :: q ∧ p.length = i ∧ n ∉ p
  | .nil, n, i, h => by simp [NodeList.indexOf] at h
  | .cons x xs, n, i, h => by
      by_cases hx : x = n
      · subst hx
        simp [NodeList.indexOf] at h
        exact ⟨[], xs.toList, by simp [NodeList.toList], by simp [h], by simp⟩
      · simp [NodeList.indexOf, hx] at h
        rcases hj : xs.indexOf n with _ | j
        · rw [hj] at h; simp at h
        · rw [hj] at h
          simp at h
          obtain ⟨p, q, hpq, hlen, hnp⟩ := indexOf_some_split xs n j hj
          refine ⟨x :: p, q, by simp [NodeList.toList, hpq], by simp [hlen]; omega, ?_⟩
          simp [hnp]
          exact fun heq => hx heq.symm

theorem insertAt_toList (cs : NodeList) (p q : List Node) (x : Node)
    (h : cs.toList = p ++ q) : (cs.insertAt p.length x).toList = p ++ x :: q := by
  induction p generalizing cs with
  | nil =>
    cases cs with
    | nil =>
      simp [NodeList.toList] at h
      simp [NodeList.insertAt, NodeList.toList, ← h]
    | cons y ys =>
      simp [NodeList.toList] at h
      simp [NodeList.insertAt, NodeList.toList, h]
  | cons a p' ih =>
    cases cs with
    | nil => simp [NodeList.toList] at h
    | cons y ys =>
      simp [NodeList.toList] at h
      simp [NodeList.insertAt, NodeList.toList, h.1, ih ys h.2]

theorem setAt_toList (cs : NodeList) (p q : List Node) (old x : Node)
    (h : cs.toList = p ++ old :: q) : (cs.setAt p.length x).toList = p ++ x :: q := by
  induction p generalizing cs with
  | nil =>
    cases cs with
    | nil => simp [NodeList.toList] at h
    | cons y ys =>
      simp [NodeList.toList] at h
      simp [NodeList.setAt, NodeList.toList, h.2]
  | cons a p' ih =>
    cases cs with
    | nil => simp [NodeList.toList] at h
    | cons y ys =>
      simp [NodeList.toList] at h
      simp [NodeList.setAt, NodeList.toList, h.1, ih ys h.2]

/-- Claim C7: `upsert(old, new)` replaces `old` by `new` at `old`'s first
index when `old` is present — the prefix `p` and suffix `q` of the other
children keep their positions, and the length is unchanged — and appends
`new` at the end when `old` is absent. (Both branches are total: the
`ValueError` of a missing `old` is caught and turned into the append.) -/
theorem upsert_spec (cs : NodeList) (old new : Node) :
    (cs.has old = true →
      ∃ p q, cs.toList = p ++ old :: q ∧ old ∉ p ∧
        cs.indexOf old = some p.length ∧
        (upsert cs old new).toList = p ++ new :: q ∧
        (upsert cs old new).length = cs.length) ∧
    (cs.has old = false → (upsert cs old new).toList = cs.toList ++ [new]) := by
  constructor
  · intro h
    obtain ⟨i, hi⟩ := has_true_indexOf cs old h
    obtain ⟨p, q, hpq, hlen, hnp⟩ := indexOf_some_split cs old i hi
    refine ⟨p, q, hpq, hnp, by rw [hi, hlen], ?_, ?_⟩
    · unfold upsert
      rw [hi, ← hlen]
      exact setAt_toList cs p q old new hpq
    · have h1 : (upsert cs old new).toList.length = cs.toList.length := by
        unfold upsert
        rw [hi, ← hlen, setAt_toList cs p q old new hpq, hpq]
        simp
      rw [toList_length, toList_length] at h1
      exact h1
  · intro h
    unfold upsert
    rw [has_false_indexOf cs old h]
    simp [append_toList, NodeList.toList]

/-- Witness for `upsert_spec`: replacing `"b"` in `["a","b"]` keeps the
length, and upserting into `["a"]` a node that is not a child appends. -/
theorem upsert_spec_witness :
    (upsert (.cons (LineNode ['a']) (.cons (LineNode ['b']) .nil))
        (LineNode ['b']) (LineNode ['c'])).length = 2 ∧
    (upsert (.cons (LineNode ['a']) .nil) (LineNode ['b']) (LineNode ['c'])).toList =
      [LineNode ['a'], LineNode ['c']] := by
  constructor
  · obtain ⟨p, q, _, _, _, _, hlen⟩ :=
      (upsert_spec (.cons (LineNode ['a']) (.cons (LineNode ['b']) .nil))
        (LineNode ['b']) (LineNode ['c'])).1 (by decide)
    rw [hlen]; decide
  · have h := (upsert_spec (.cons (LineNode ['a']) .nil) (LineNode ['b']) (LineNode ['c'])).2
      (by decide)
    rw [h]; decide

/-- Claim C8: When `relnode` is absent, `insert_before` and `insert_after`
with `append=False` leave the children unchanged and with `append=True`
append `node` at the end; when `relnode` is present (first occurrence at the
end of the `rel`-free prefix `p`), `insert_before` inserts immediately
before it and `insert_after` immediately after it. (All branches are total:
the `ValueError` of a missing `relnode` is caught.) -/
theorem insert_before_after_spec (cs : NodeList) (n rel : Node) :
    (∀ append : Bool, cs.has rel = true →
      ∃ p q, cs.toList = p ++ rel :: q ∧ rel ∉ p ∧
        (insert_before cs n rel append).toList = p ++ n :: rel :: q ∧
        (insert_after cs n rel append).toList = p ++ rel :: n :: q) ∧
    (cs.has rel = false →
      insert_before cs n rel false = cs ∧
      insert_after cs n rel false = cs ∧
      (insert_before cs n rel true).toList = cs.toList ++ [n] ∧
      (insert_after cs n rel true).toList = cs.toList ++ [n]) := by
  constructor
  · intro append h
    obtain ⟨i, hi⟩ := has_true_indexOf cs rel h
    obtain ⟨p, q, hpq, hlen, hnp⟩ := indexOf_some_split cs rel i hi
    refine ⟨p, q, hpq, hnp, ?_, ?_⟩
    · unfold insert_before
      rw [hi, ← hlen]
      exact insertAt_toList cs p (rel :: q) n hpq
    · unfold insert_after
      rw [hi, ← hlen]
      have h2 : cs.toList = (p ++ [rel]) ++ q := by simp [hpq]
      have h3 := insertAt_toList cs (p ++ [rel]) q n h2
      simp at h3
      simpa using h3
  · intro h
    have hidx := has_false_indexOf cs rel h
    refine ⟨?_, ?_, ?_, ?_⟩ <;>
      simp [insert_before, insert_after, hidx, append_toList, NodeList.toList]

/-- Witness for `insert_before_after_spec`: inserting relative to an absent
node is a no-op without `append` and an append with it; inserting before a
present node grows the list by one. -/
theorem insert_before_after_spec_witness :
    insert_before (.cons (LineNode ['a']) .nil) (LineNode ['n']) (LineNode ['r']) false =
      .cons (LineNode ['a']) .nil ∧
    (insert_after (.cons (LineNode ['a']) .nil) (LineNode ['n']) (LineNode ['r']) true).toList =
      [LineNode ['a'], LineNode ['n']] ∧
    (insert_before (.cons (LineNode ['a']) .nil) (LineNode ['n']) (LineNode ['a']) true).toList.length = 2 := by
  have h := (insert_before_after_spec (.cons (LineNode ['a']) .nil) (LineNode ['n'])
    (LineNode ['r'])).2 (by decide)
  refine ⟨h.1, ?_, ?_⟩
  · rw [h.2.2.2]; decide
  · obtain ⟨p, q, hpq, _, hb, _⟩ := (insert_before_after_spec (.cons (LineNode ['a']) .nil)
      (LineNode ['n']) (LineNode ['a'])).1 true (by decide)
    rw [hb]
    have := congrArg List.length hpq
    simp [NodeList.toList] at this ⊢
    omega

mutual
/-- Every path yielded by `walkpath` is at most `maxdepth + 1` longer than
the supplied `nodepath`. -/
theorem walkpath_length_le (n : Node) (p : List Node) (d : Nat) (td : Bool) (q : List Node)
    (h : q ∈ walkpath n p d td) : q.length ≤ p.length + d + 1 := by
  cases n with
  | leaf k v =>
    simp [walkpath] at h
    subst h
    simp
  | join sep cs =>
    by_cases hd : 0 < d
    · have hnp : q = p ++ [Node.join sep cs] → q.length ≤ p.length + d + 1 := by
        intro he
        subst he
        simp
      have hlist : ∀ b, q ∈ walkpathList cs (p ++ [Node.join sep cs]) (d - 1) b →
          q.length ≤ p.length + d + 1 := by
        intro b hb
        have := walkpathList_length_le cs (p ++ [Node.join sep cs]) (d - 1) b q hb
        simp at this
        omega
      cases td <;> simp [walkpath, hd] at h <;> rcases h with h | h <;>
        first | exact hlist _ h | exact hnp h
    · cases td <;> simp [walkpath, hd] at h <;> (subst h; simp)

/-- The list-of-children half of `walkpath_length_le`. -/
theorem walkpathList_length_le (cs : NodeList) (p : List Node) (d : Nat) (td : Bool)
    (q : List Node) (h : q ∈ walkpathList cs p d td) : q.length ≤ p.length + d + 1 := by
  cases cs with
  | nil => simp [walkpathList] at h
  | cons c rest =>
    simp [walkpathList] at h
    rcases h with h | h
    · exact walkpath_length_le c p d td q h
    · exact walkpathList_length_le rest p d td q h
end

mutual
/-- Every path yielded by `walkpath n p ...` extends `p` by `n` followed by
a parent-to-child chain starting at `n`. -/
theorem walkpath_chain (n : Node) (p : List Node) (d : Nat) (td : Bool) (q : List Node)
    (h : q ∈ walkpath n p d td) : ∃ r, q = p ++ n :: r ∧ isChain (n :: r) = true := by
  cases n with
  | leaf k v =>
    simp [walkpath] at h
    exact ⟨[], by simp [h], by simp [isChain]⟩
  | join sep cs =>
    by_cases hd : 0 < d
    · have hnp : q = p ++ [Node.join sep cs] →
          ∃ r, q = p ++ Node.join sep cs :: r ∧ isChain (Node.join sep cs :: r) = true := by
        intro he
        exact ⟨[], by simp [he], by simp [isChain]⟩
      have hlist : ∀ b, q ∈ walkpathList cs (p ++ [Node.join sep cs]) (d - 1) b →
          ∃ r, q = p ++ Node.join sep cs :: r ∧ isChain (Node.join sep cs :: r) = true := by
        intro b hb
        obtain ⟨c, r, hc, hq, hchain⟩ :=
          walkpathList_chain cs (p ++ [Node.join sep cs]) (d - 1) b q hb
        exact ⟨c :: r, by simp [hq], by simp [isChain, childrenOf, hc, hchain]⟩
      cases td <;> simp [walkpath, hd] at h <;> rcases h with h | h <;>
        first | exact hlist _ h | exact hnp h
    · cases td <;> simp [walkpath, hd] at h <;>
        exact ⟨[], by simp [h], by simp [isChain]⟩

/-- The list-of-children half of `walkpath_chain`: the path extends `p` by
some member `c` of the child list. -/
theorem walkpathList_chain (cs : NodeList) (p : List Node) (d : Nat) (td : Bool)
    (q : List Node) (h : q ∈ walkpathList cs p d td) :
    ∃ c r, cs.has c = true ∧ q = p ++ c :: r ∧ isChain (c :: r) = true := by
  cases cs with
  | nil => simp [walkpathList] at h
  | cons c0 rest =>
    simp [walkpathList] at h
    rcases h with h | h
    · obtain ⟨r, hq, hchain⟩ := walkpath_chain c0 p d td q h
      exact ⟨c0, r, by simp [NodeList.has], hq, hchain⟩
    · obtain ⟨c, r, hc, hq, hchain⟩ := walkpathList_chain rest p d td q h
      exact ⟨c, r, by simp [NodeList.has, hc], hq, hchain⟩
end

/-- Every `path`-projected element of `findLoop`'s result comes from the
accumulator or from the walked paths. -/
theorem findLoop_path_subset (m : Matcher) (rt : RetType) (paths : List (List Node))
    (acc : List FindResult) (q : List Node)
    (h : FindResult.path q ∈ findLoop m rt paths acc) :
    FindResult.path q ∈ acc ∨ q ∈ paths := by
  induction paths generalizing acc with
  | nil =>
    simp [findLoop] at h
    exact Or.inl h
  | cons np rest ih =>
    unfold findLoop at h
    rcases hl : np.getLast? with _ | node
    · simp only [hl] at h
      rcases ih _ h with h' | h'
      · exact Or.inl h'
      · exact Or.inr (List.mem_cons_of_mem _ h')
    · simp only [hl] at h
      by_cases hm : m.matchfn node np
      · rw [if_pos hm] at h
        by_cases hb : (((acc ++ [projResult rt np node]).length : Int) = m.maxcount)
        · rw [if_pos hb] at h
          rcases List.mem_append.mp h with h' | h'
          · exact Or.inl h'
          · simp at h'
            cases rt with
            | node => simp [projResult] at h'
            | path =>
              simp [projResult] at h'
              subst h'
              exact Or.inr (List.mem_cons_self _ _)
            | parentchild => simp [projResult] at h'
        · rw [if_neg hb] at h
          rcases ih _ h with h' | h'
          · rcases List.mem_append.mp h' with h'' | h''
            · exact Or.inl h''
            · simp at h''
              cases rt with
              | node => simp [projResult] at h''
              | path =>
                simp [projResult] at h''
                subst h''
                exact Or.inr (List.mem_cons_self _ _)
              | parentchild => simp [projResult] at h''
          · exact Or.inr (List.mem_cons_of_mem _ h')
      · rw [if_neg hm] at h
        rcases ih _ h with h' | h'
        · exact Or.inl h'
        · exact Or.inr (List.mem_cons_of_mem _ h')

/-- Claim C3, amended: For every `d ≥ 1`, every `path`-projected result of
`find(matcher, maxdepth=d)` is a path of length at most `d + 1` from the
query root. (`d = 0` is excluded: Python's `maxdepth or matcher.maxdepth`
treats `0` as unset and substitutes the matcher's default depth.) -/
theorem find_maxdepth_bound (root : Node) (m : Matcher) (mc : Option Int) (d : Nat)
    (q : List Node) (hd : 1 ≤ d)
    (hq : FindResult.path q ∈ find root m mc (some d) (some .path)) :
    q.length ≤ d + 1 := by
  have hmd : pyOrNat (some d) m.maxdepth = d := by
    simp only [pyOrNat]
    rw [if_neg (by omega)]
  simp only [find, hmd] at hq
  rcases findLoop_path_subset _ _ _ _ _ hq with h | h
  · simp at h
  · have := walkpath_length_le root [] d true q h
    simpa using this

/-- Witness for `find_maxdepth_bound` at `d = 1` on the one-line tree. -/
theorem find_maxdepth_bound_witness :
    ([oneLineRoot, LineNode ['a']] : List Node).length ≤ 1 + 1 :=
  find_maxdepth_bound oneLineRoot anyMatcher none 1 [oneLineRoot, LineNode ['a']]
    (by decide) (by decide)

/-- Claim C10: For `d ≥ 1`, every path yielded by `walkpath(maxdepth=d)` from
a query root `c` — and every `path`-projected result of `c.find` — is
non-empty, starts with `c` itself, and each element after the first is a
member of the children of the element before it. -/
theorem walkpath_wellformed (c : Node) (d : Nat) (q : List Node) (m : Matcher)
    (mc : Option Int) (hd : 1 ≤ d) :
    (q ∈ walkpath c [] d true → q ≠ [] ∧ q.head? = some c ∧ isChain q = true) ∧
    (FindResult.path q ∈ find c m mc (some d) (some .path) →
      q ≠ [] ∧ q.head? = some c ∧ isChain q = true) := by
  have main : q ∈ walkpath c [] d true → q ≠ [] ∧ q.head? = some c ∧ isChain q = true := by
    intro h
    obtain ⟨r, hq, hchain⟩ := walkpath_chain c [] d true q h
    simp at hq
    subst hq
    exact ⟨by simp, by simp, hchain⟩
  refine ⟨main, fun hq => ?_⟩
  have hmd : pyOrNat (some d) m.maxdepth = d := by
    simp only [pyOrNat]
    rw [if_neg (by omega)]
  simp only [find, hmd] at hq
  rcases findLoop_path_subset _ _ _ _ _ hq with h | h
  · simp at h
  · exact main h

/-- Witness for `walkpath_wellformed` on the one-line tree. -/
theorem walkpath_wellformed_witness :
    ([oneLineRoot, LineNode ['a']] : List Node) ≠ [] ∧
    ([oneLineRoot, LineNode ['a']] : List Node).head? = some oneLineRoot ∧
    isChain [oneLineRoot, LineNode ['a']] = true :=
  (walkpath_wellformed oneLineRoot 1 [oneLineRoot, LineNode ['a']] anyMatcher none
    (by decide)).1 (by decide)

end Hpct
